import Mathlib

/-!
Verification development for the agent execution engine of the micro-agent
repository.

The embedded code is the agent loop of
src/agent/config/openai-config.ts (MicroAgentService.createAgentChat and its
inner async generator agentLoopGenerator) together with the gateway adapter
createStreamingChat of src/agent/services/streaming-chat.ts and the finish
tool of src/agent/agent/agent-tools.ts.

Modelling conventions:
* JavaScript values flowing through the loop (parsed tool parameters, tool
  results) are modelled by the inductive JVal below.
* JSON.parse is a platform primitive; it is modelled as an explicit function
  argument of type String → Except String JVal (error = thrown exception,
  carrying the exception message).
* The source stores JSON.stringify(result) as the content of tool history
  turns; the model stores the structured result value itself (plain text
  contents are stored as JVal.jstr).  No property below depends on the
  concrete serialized text.
* Wall-clock data (timestamp fields of emitted chunks, Date.now() suffixes of
  fallback tool_call ids, the timestamp field of the finish tool result) is
  dropped from the model; no property below mentions it.
* A streaming response of the completion gateway is a list of raw chunks
  optionally followed by a raised exception (the exception surfaces only when
  the consumer pulls past the delivered chunks).  One invocation's gateway
  behaviour is the list of per-request streams, in request order.
-/

/-- Minimal model of the JavaScript/JSON values handled by the loop. -/
inductive JVal where
  | jnull : JVal
  | jbool : Bool → JVal
  | jnum : Int → JVal
  | jstr : String → JVal
  | jarr : List JVal → JVal
  | jobj : List (String × JVal) → JVal

/-- JavaScript truthiness of a modelled value. -/
def jTruthy : JVal → Bool
  | .jnull => false
  | .jbool b => b
  | .jnum n => n != 0
  | .jstr s => s != ""
  | .jarr _ => true
  | .jobj _ => true

/-- Field lookup on a modelled object value; none for non-objects or absent
fields (mirrors property access returning undefined). -/
def jField (key : String) : JVal → Option JVal
  | .jobj fs => fs.lookup key
  | _ => none

/-- Truthiness of an optional string, as used by the source's
`if (chunk.choices[0]?.finish_reason)` style checks. -/
def strTruthy : Option String → Bool
  | some s => s != ""
  | none => false

/-- `o || dflt` for optional strings (empty string is falsy). -/
def strOr (o : Option String) (dflt : String) : String :=
  match o with
  | some s => if s = "" then dflt else s
  | none => dflt

/-- The `function` field of a streamed tool-call fragment
(`{ name?: string, arguments?: string }`). -/
structure ToolFuncDelta where
  name : Option String := none
  arguments : Option String := none

/-- One streamed tool-call fragment
(`{ index, id?, type?, function? }`). -/
structure ToolCallDelta where
  index : Nat
  id : Option String := none
  typ : Option String := none
  func : Option ToolFuncDelta := none

/-- The `delta` of one raw stream chunk
(`{ content?: string, tool_calls?: [...] }`). -/
structure RawDelta where
  content : Option String := none
  tool_calls : Option (List ToolCallDelta) := none

/-- One raw stream chunk, reduced to the parts the source reads
(`chunk.choices[0]?.delta` and `chunk.choices[0]?.finish_reason`). -/
structure RawChunk where
  delta : Option RawDelta := none
  finish_reason : Option String := none

/-- One streaming response: the delivered chunks, then an optional exception
that is raised if and only if the consumer pulls past the last chunk. -/
structure TurnStream where
  chunks : List RawChunk := []
  err : Option String := none

/-- Buffered accumulation state for one tool-call index
(`{ id, type, function: { name, arguments } }` in the source's map). -/
structure ToolCallAcc where
  id : Option String
  typ : String
  name : String
  arguments : String

/-- The content of chunk.choices[0]?.delta?.content, defaulted to the empty
string (`|| ''` is not in the source here, but an absent field is falsy and
skips both the append and the yield, which coincides with treating it as ""). -/
def contentOf (c : RawChunk) : String :=
  ((c.delta.bind RawDelta.content).getD (""))

/-- The tool-call fragments of one raw chunk (absent field = no fragments). -/
def fragsOf (c : RawChunk) : List ToolCallDelta :=
  ((c.delta.bind RawDelta.tool_calls).getD ([]))

/-- First-fragment initialisation of a map entry:
`{ id: tc.id, type: tc.type || 'function', function: { name:'', arguments:'' } }`. -/
def initialAcc (d : ToolCallDelta) : ToolCallAcc :=
  { id := d.id, typ := strOr d.typ ("function"), name := "", arguments := "" }

/-- Appending one fragment's name/arguments to an entry:
`if (tc.function?.name) acc.function.name += tc.function.name` and likewise
for arguments (falsy, i.e. absent or empty, fragments are skipped). -/
def appendFrag (acc : ToolCallAcc) (d : ToolCallDelta) : ToolCallAcc :=
  let n := ((d.func.bind ToolFuncDelta.name).getD (""))
  let a := ((d.func.bind ToolFuncDelta.arguments).getD (""))
  let acc1 := if n = "" then acc else { acc with name := acc.name ++ n }
  if a = "" then acc1 else { acc1 with arguments := acc1.arguments ++ a }

/-- The source's `toolCallMap` is a JavaScript Map keyed by `index`; it is
modelled as an association list in insertion order, which is exactly the
iteration order of a JavaScript Map. -/
abbrev ToolCallMap := List (Nat × ToolCallAcc)

/-- In-place update of the entry with the given index (keys are unique by
construction, so at most one entry changes, and positions are preserved). -/
def mapUpdate (m : ToolCallMap) (i : Nat) (f : ToolCallAcc → ToolCallAcc) : ToolCallMap :=
  m.map (fun p => if p.1 == i then (p.1, f p.2) else p)

/-- Processing one tool-call fragment against the map: create the entry on
first sight of the index, then append the fragment's name/arguments. -/
def processFragment (m : ToolCallMap) (d : ToolCallDelta) : ToolCallMap :=
  let m1 := if (m.find? (fun p => p.1 == d.index)).isSome then m
            else m ++ [(d.index, initialAcc d)]
  mapUpdate m1 d.index (fun acc => appendFrag acc d)

/-- An emitted AgentStepChunk, minus its wall-clock timestamp. -/
structure ToolCallInfo where
  name : String
  parameters : JVal
  result : JVal

/-- The event type exposed by the loop
(`{ content, step, toolCall?, isDone, error?, timestamp }`). -/
structure AgentStepChunk where
  content : String
  step : Nat
  toolCall : Option ToolCallInfo := none
  isDone : Bool
  error : Option String := none

/-- Result of consuming one streaming response inside an iteration:
the content chunks emitted while streaming, the accumulated assistant
content, the tool-call map, and the exception reached (if any). -/
structure StreamOutcome where
  chunks : List AgentStepChunk
  content : String
  callMap : ToolCallMap
  raised : Option String

/-- The `for await (const chunk of response)` loop of agentLoopGenerator:
truthy content is appended to assistantContent and immediately yielded as an
isDone:false chunk; tool-call fragments are folded into the map; a truthy
finish_reason breaks out of the loop (so a pending stream exception is never
reached); pulling past the delivered chunks raises the stream's exception. -/
def consumeStream (step : Nat) : List RawChunk → Option String → String → ToolCallMap → StreamOutcome
  | [], err, acc, m => ⟨[], acc, m, err⟩
  | c :: rest, err, acc, m =>
      let s := contentOf c
      let emitted : List AgentStepChunk :=
        if s = "" then [] else [{ content := s, step := step, isDone := false }]
      let acc' := if s = "" then acc else acc ++ s
      let m' := (fragsOf c).foldl processFragment m
      if strTruthy c.finish_reason then ⟨emitted, acc', m', none⟩
      else
        let r := consumeStream step rest err acc' m'
        ⟨emitted ++ r.chunks, r.content, r.callMap, r.raised⟩

/-- A registered tool: name plus the settled outcome of executing it on
parsed parameters (ok = resolved result value, error = thrown/rejected
message). -/
structure AgentTool where
  name : String
  execute : JVal → Except String JVal

/-- The finish tool of src/agent/agent/agent-tools.ts: returns
`{ finished: true, answer }` (the wall-clock timestamp field is dropped). -/
def finishTool : AgentTool where
  name := "finish"
  execute := fun params =>
    .ok (.jobj [(("finished"), .jbool true), (("answer"), (jField ("answer") params).getD .jnull)])

/-- One conversation history entry.  Text contents are stored as jstr; tool
turns store the structured result that the source serializes with
JSON.stringify. -/
structure ChatMessage where
  role : String
  content : JVal
  tool_call_id : Option String := none
  toolCalls : List ToolCallAcc := []

/-- Loop configuration after option resolution: the registered tools, the
effective maxSteps, and the JSON.parse model. -/
structure LoopConfig where
  tools : List AgentTool
  maxSteps : Nat
  parse : String → Except String JVal

/-- `toolCall.id || 'tool_<step>_<Date.now()>'` (the wall-clock suffix is
dropped; an absent or empty id falls back to the synthetic id). -/
def toolCallIdOr (id : Option String) (step : Nat) : String :=
  match id with
  | some s => if s = "" then ("tool_") ++ toString step else s
  | none => ("tool_") ++ toString step

/-- `toolArgs || '{}'`: an empty accumulated arguments string is replaced by
the empty-object JSON text before parsing. -/
def argsOrEmptyObj (a : String) : String :=
  if a = "" then ("\x7b\x7d") else a

/-- The pre-dispatch chunk `{content:'', step, toolCall:{name, parameters,
result:null}, isDone:false}`. -/
def preDispatchChunk (step : Nat) (name : String) (params : JVal) : AgentStepChunk :=
  { content := "", step := step, toolCall := some ⟨name, params, .jnull⟩, isDone := false }

/-- `{ success: true, data, toolName, parameters }`. -/
def successResult (name : String) (params data : JVal) : JVal :=
  .jobj [(("success"), .jbool true), (("data"), data),
         (("toolName"), .jstr name), (("parameters"), params)]

/-- `{ success: false, error, toolName, parameters }`. -/
def errorResult (name : String) (params : JVal) (e : String) : JVal :=
  .jobj [(("success"), .jbool false), (("error"), .jstr e),
         (("toolName"), .jstr name), (("parameters"), params)]

/-- The unknown-tool error text `未找到工具: <name>`. -/
def unknownToolMsg (name : String) : String :=
  ("未找到工具: ") ++ name

/-- The chunk yielded for an unknown tool name: its result object carries
only success and error (no toolName/parameters fields), and the chunk's
error field is set. -/
def unknownToolChunk (step : Nat) (name : String) (params : JVal) : AgentStepChunk :=
  { content := "", step := step,
    toolCall := some ⟨name, params,
      .jobj [(("success"), .jbool false), (("error"), .jstr (unknownToolMsg name))]⟩,
    isDone := false, error := some (unknownToolMsg name) }

/-- The post-dispatch chunk for a successful execution. -/
def successChunk (step : Nat) (name : String) (params data : JVal) : AgentStepChunk :=
  { content := "", step := step,
    toolCall := some ⟨name, params, successResult name params data⟩,
    isDone := false }

/-- The post-dispatch chunk for a failed execution. -/
def errorChunk (step : Nat) (name : String) (params : JVal) (e : String) : AgentStepChunk :=
  { content := "", step := step,
    toolCall := some ⟨name, params, errorResult name params e⟩,
    isDone := false, error := some e }

/-- `toolName === 'finish' && toolResult && typeof toolResult === 'object' &&
'finished' in toolResult && toolResult.finished` — the name comparison is
kept at the call site; this predicate is the part about the result value.
Only truthy non-null objects can carry a truthy finished field. -/
def isFinishResult (v : JVal) : Bool :=
  match jField ("finished") v with
  | some f => jTruthy f
  | none => false

/-- `(toolResult as any).answer` used as the content of the terminal chunk.
All finish results in the registry carry a string answer; a non-string
answer is modelled as the empty string (the source would propagate the raw
value into the content field). -/
def answerString (v : JVal) : String :=
  match jField ("answer") v with
  | some (.jstr s) => s
  | _ => ""

/-- The terminal chunk emitted when the finish tool reports completion:
`{content: answer, step, toolCall:{name, parameters, result:{success:true,
data, toolName, parameters}}, isDone:true}`. -/
def finishTerminalChunk (step : Nat) (name : String) (params data : JVal) : AgentStepChunk :=
  { content := answerString data, step := step,
    toolCall := some ⟨name, params, successResult name params data⟩,
    isDone := true }

/-- How the sequential dispatch of one turn's tool calls ended: ran through
all calls, terminated by the finish tool, or raised (JSON.parse throw). -/
inductive DispatchOutcome where
  | next : DispatchOutcome
  | finished : DispatchOutcome
  | raised : String → DispatchOutcome
deriving DecidableEq

/-- Result of dispatching a turn's assembled tool calls: emitted chunks,
updated history, outcome. -/
structure DispatchResult where
  chunks : List AgentStepChunk
  messages : List ChatMessage
  outcome : DispatchOutcome

/-- The `for (const toolCall of assistantMessage.tool_calls)` body of
agentLoopGenerator.  Per call: JSON.parse the accumulated arguments (a throw
escapes the dispatch — there is no try/catch around this parse); yield the
pre-dispatch chunk; look the tool up by exact name; unknown name yields a
failure chunk and continues WITHOUT touching history; otherwise execute,
append the tool turn to history, yield the result chunk, and, when the
finish tool reports completion, yield the terminal chunk and stop.
(The source's unsupported-tool-type branch is unreachable for streamed
calls, whose function field always exists, and is not modelled.) -/
def dispatchCalls (cfg : LoopConfig) (step : Nat) :
    List ToolCallAcc → List ChatMessage → DispatchResult
  | [], msgs => ⟨[], msgs, .next⟩
  | c :: rest, msgs =>
      match cfg.parse (argsOrEmptyObj c.arguments) with
      | .error e => ⟨[], msgs, .raised e⟩
      | .ok params =>
        let pre := preDispatchChunk step c.name params
        match cfg.tools.find? (fun t => t.name == c.name) with
        | none =>
            let r := dispatchCalls cfg step rest msgs
            ⟨pre :: unknownToolChunk step c.name params :: r.chunks, r.messages, r.outcome⟩
        | some t =>
            match t.execute params with
            | .error e =>
                let msgs' := msgs ++
                  [{ role := "tool", content := errorResult c.name params e,
                     tool_call_id := some (toolCallIdOr c.id step) }]
                let r := dispatchCalls cfg step rest msgs'
                ⟨pre :: errorChunk step c.name params e :: r.chunks, r.messages, r.outcome⟩
            | .ok data =>
                let msgs' := msgs ++
                  [{ role := "tool", content := successResult c.name params data,
                     tool_call_id := some (toolCallIdOr c.id step) }]
                if c.name == ("finish") && isFinishResult data then
                  ⟨[pre, successChunk step c.name params data,
                    finishTerminalChunk step c.name params data], msgs', .finished⟩
                else
                  let r := dispatchCalls cfg step rest msgs'
                  ⟨pre :: successChunk step c.name params data :: r.chunks,
                   r.messages, r.outcome⟩

/-- The terminal chunk of the step-budget path:
`{content:'达到最大步数限制 (K)，任务可能未完成。', step, isDone:true,
error:'最大步数限制'}`. -/
def maxStepsChunk (maxSteps step : Nat) : AgentStepChunk :=
  { content := ("达到最大步数限制 (") ++ toString maxSteps ++ (")，任务可能未完成。"),
    step := step, isDone := true, error := some ("最大步数限制") }

/-- The terminal chunk of the generator's outer catch:
`{content:'', step, isDone:true, error}`. -/
def catchChunk (step : Nat) (e : String) : AgentStepChunk :=
  { content := "", step := step, isDone := true, error := some e }

/-- The assistant history entry built from one turn (tool_calls attached only
when the assembled list is non-empty, matching the source's conditional). -/
def assistantMessage (content : String) (toolCalls : List ToolCallAcc) : ChatMessage :=
  { role := "assistant", content := .jstr content, toolCalls := toolCalls }

/-- Result of one invocation: the emitted chunk sequence, the final history,
and the number of streaming requests issued to the gateway. -/
structure LoopResult where
  chunks : List AgentStepChunk
  messages : List ChatMessage
  requests : Nat

/-- The `while (step < maxSteps && !isCompleted)` loop of agentLoopGenerator,
with fuel = maxSteps - step.  Each iteration increments step, issues one
streaming request (the corresponding TurnStream; an exhausted behaviour list
behaves as an immediately-ending stream), consumes it, appends the assistant
turn, and either ends as a direct answer (no tool calls — note: no terminal
chunk is emitted on this path), dispatches the assembled calls, or ends via
the outer catch.  When fuel runs out with the loop not completed, the
max-steps terminal chunk is emitted with the current step value. -/
def agentLoop (cfg : LoopConfig) : List TurnStream → Nat → Nat → List ChatMessage → LoopResult
  | _, 0, step, msgs => ⟨[maxStepsChunk cfg.maxSteps step], msgs, 0⟩
  | gw, fuel + 1, step, msgs =>
      let step' := step + 1
      let ts := gw.headD {}
      let so := consumeStream step' ts.chunks ts.err ("") []
      match so.raised with
      | some e => ⟨so.chunks ++ [catchChunk step' e], msgs, 1⟩
      | none =>
          let toolCalls := so.callMap.map Prod.snd
          let msgs1 := msgs ++ [assistantMessage so.content toolCalls]
          if toolCalls.isEmpty then
            ⟨so.chunks, msgs1, 1⟩
          else
            let d := dispatchCalls cfg step' toolCalls msgs1
            match d.outcome with
            | .finished => ⟨so.chunks ++ d.chunks, d.messages, 1⟩
            | .raised e => ⟨so.chunks ++ d.chunks ++ [catchChunk step' e], d.messages, 1⟩
            | .next =>
                let r := agentLoop cfg gw.tail fuel step' d.messages
                ⟨so.chunks ++ d.chunks ++ r.chunks, r.messages, r.requests + 1⟩

/-- `options?.maxSteps || config.maxSteps || 10`: the selected configs
(default and simple) both set maxSteps = 99, so an absent or zero option
resolves to 99 and the effective budget is always at least 1. -/
def effectiveMaxSteps (o : Option Nat) : Nat :=
  match o with
  | some k => if k = 0 then 99 else k
  | none => 99

/-- createAgentChat: seed history with the mode-selected system prompt and
the user message, resolve maxSteps, and run the loop against the given
gateway behaviour. -/
def createAgentChat (tools : List AgentTool) (maxStepsOpt : Option Nat)
    (parse : String → Except String JVal) (systemPrompt userMessage : String)
    (gw : List TurnStream) : LoopResult :=
  let maxSteps := effectiveMaxSteps maxStepsOpt
  agentLoop ⟨tools, maxSteps, parse⟩ gw maxSteps 0
    [{ role := "system", content := .jstr systemPrompt },
     { role := "user", content := .jstr userMessage }]

/-- Builder for a raw chunk that only carries content. -/
def contentChunkRaw (s : String) : RawChunk :=
  { delta := some { content := some s } }

/-- Builder for a raw chunk that only carries a finish_reason. -/
def finishReasonRaw (r : String) : RawChunk :=
  { finish_reason := some r }

/-- Builder for a tool-call fragment with an id, a name part and an
arguments part. -/
def fragRaw (i : Nat) (idStr n a : Option String) : ToolCallDelta :=
  { index := i, id := idStr, func := some { name := n, arguments := a } }

/-- Builder for a raw chunk carrying tool-call fragments and an optional
finish_reason. -/
def toolCallsRaw (ds : List ToolCallDelta) (fin : Option String) : RawChunk :=
  { delta := some { tool_calls := some ds }, finish_reason := fin }

/-- A chunk of the gateway adapter's exposed stream
(`{ content, isDone, error?, timestamp }`, timestamp dropped). -/
structure StreamChunk where
  content : String
  isDone : Bool
  error : Option String := none

/-- The async generator of createStreamingChat
(src/agent/services/streaming-chat.ts, lines 49-85): truthy content is
yielded as an isDone:false chunk and sets hasContent; a truthy finish_reason
yields a bare isDone:true marker only when no content was ever yielded, and
breaks; an exception raised by the underlying stream yields an isDone:true
chunk carrying the error message. -/
def scRun : List RawChunk → Option String → Bool → List StreamChunk
  | [], err, _ =>
      match err with
      | some e => [{ content := "", isDone := true, error := some e }]
      | none => []
  | c :: rest, err, hasContent =>
      let s := contentOf c
      let emitted : List StreamChunk :=
        if s = "" then [] else [{ content := s, isDone := false }]
      let hc := hasContent || s != ""
      if strTruthy c.finish_reason then
        emitted ++ (if hc then [] else [{ content := "", isDone := true }])
      else
        emitted ++ scRun rest err hc

/-- The full chunk sequence createStreamingChat produces for one streaming
response. -/
def createStreamingChat (ts : TurnStream) : List StreamChunk :=
  scRun ts.chunks ts.err false

/-- Adjacent relation of the emitted step values: within an iteration the
step stays the same, and from one chunk to the next it can grow by at most
one. -/
def stepRel (a b : Nat) : Prop := a = b ∨ b = a + 1

/-- The name part contributed by one fragment (absent = ""). -/
def fragName (d : ToolCallDelta) : String :=
  ((d.func.bind ToolFuncDelta.name).getD (""))

/-- The arguments part contributed by one fragment (absent = ""). -/
def fragArgs (d : ToolCallDelta) : String :=
  ((d.func.bind ToolFuncDelta.arguments).getD (""))

/-- Order-preserving concatenation of a list of strings. -/
def strConcat (l : List String) : String :=
  l.foldr (fun a b => a ++ b) ("")

/-- toolCallMap.get(index) on the modelled map. -/
def mapFind (m : ToolCallMap) (i : Nat) : Option ToolCallAcc :=
  (m.find? (fun p => p.1 == i)).map Prod.snd

/-! ## Helper lemmas about the loop components -/

/-- Toy JSON.parse covering exactly the argument strings used by the
concrete runs below (everything else throws, as JSON.parse does on
malformed input). -/
def testParse : String → Except String JVal
  | "\x7b\x7d" => .ok (.jobj [])
  | "\x7b\"answer\":\"4\"\x7d" => .ok (.jobj [(("answer"), .jstr ("4"))])
  | s => .error (("Unexpected token in JSON: ") ++ s)

/-- Whether the gateway adapter's stream reaches a truthy finish marker
before any non-empty content fragment was delivered (the content of the
marker chunk itself is delivered before the marker is checked). -/
def finishBeforeContent : List RawChunk → Bool
  | [] => false
  | c :: rest =>
      if contentOf c != "" then false
      else if strTruthy c.finish_reason then true
      else finishBeforeContent rest

/-- The indexes of a fragment sequence in first-seen order (the iteration
order of the source's JavaScript Map). -/
def firstSeenOrder (ds : List ToolCallDelta) : List Nat :=
  ds.foldl (fun ks d => if ks.contains d.index then ks else ks ++ [d.index]) []

/-- Gateway behaviour: one turn streaming plain content and a stop marker,
no tool calls (a direct answer). -/
def gwDirectAnswer : List TurnStream :=
  [{ chunks := [contentChunkRaw ("The answer is 4."), finishReasonRaw ("stop")] }]

/-- Gateway behaviour of spec Scenario A: content streamed as "2" then
"+2=4", then a completion marker, no tool calls. -/
def gwScenarioA : List TurnStream :=
  [{ chunks := [contentChunkRaw ("2"), contentChunkRaw ("+2=4"),
                finishReasonRaw ("stop")] }]

/-- Gateway behaviour: the first turn requests math_calc with a malformed
arguments string, the second (never reached) turn would answer directly. -/
def gwMalformedArgs : List TurnStream :=
  [{ chunks := [toolCallsRaw
      [fragRaw 0 (some ("call_1")) (some ("math_calc")) (some ("\x7binvalid"))]
      (some ("tool_calls"))] },
   { chunks := [contentChunkRaw ("x"), finishReasonRaw ("stop")] }]

/-- Gateway behaviour: the first turn requests a tool that is not
registered, the second turn answers directly. -/
def gwUnknownTool : List TurnStream :=
  [{ chunks := [toolCallsRaw
      [fragRaw 0 (some ("call_1")) (some ("no_such_tool")) (some ("\x7b\x7d"))]
      (some ("tool_calls"))] },
   { chunks := [contentChunkRaw ("done"), finishReasonRaw ("stop")] }]

/-- Gateway behaviour: one turn requesting finish({"answer":"4"}). -/
def gwFinishCall : List TurnStream :=
  [{ chunks := [toolCallsRaw
      [fragRaw 0 (some ("call_f")) (some ("finish")) (some ("\x7b\"answer\":\"4\"\x7d"))]
      (some ("tool_calls"))] }]

/-- Fragments whose first appearances arrive in non-ascending index order:
index 1 first, then index 0. -/
def outOfOrderFrags : List ToolCallDelta :=
  [fragRaw 1 (some ("b")) (some ("tool_b")) (some ("\x7b\x7d")),
   fragRaw 0 (some ("a")) (some ("tool_a")) (some ("\x7b\x7d"))]

/-- Gateway behaviour delivering the out-of-order fragments in one turn. -/
def gwOutOfOrder : List TurnStream :=
  [{ chunks := [toolCallsRaw outOfOrderFrags (some ("tool_calls"))] }]

/-- A chunked delivery of one tool call (name "ev"+"al", arguments split in
two) interleaved with fragments of another index. -/
def interleavedFrags : List ToolCallDelta :=
  [fragRaw 0 (some ("a")) (some ("ev")) (some ("\x7b")),
   fragRaw 1 (some ("b")) (some ("other")) (some ("\x7b\x7d")),
   fragRaw 0 none (some ("al")) (some ("\x7d"))]

/-- Chunks emitted while consuming a stream are pure content chunks: not
terminal, carrying the current step, no tool call and no error. -/
theorem consumeStream_chunks_shape (step : Nat) (l : List RawChunk) :
    ∀ err acc m, ∀ c ∈ (consumeStream step l err acc m).chunks,
      c.isDone = false ∧ c.step = step ∧ c.toolCall = none ∧ c.error = none := by
  induction l with
  | nil =>
      intro err acc m c hc
      simp [consumeStream] at hc
  | cons hd tl ih =>
      intro err acc m c hc
      simp only [consumeStream] at hc
      by_cases hf : strTruthy hd.finish_reason
      · simp only [hf, if_pos] at hc
        by_cases hs : contentOf hd = ""
        · simp [hs] at hc
        · simp [hs] at hc
          simp [hc]
      · simp only [hf, if_neg, Bool.false_eq_true, not_false_iff] at hc
        by_cases hs : contentOf hd = ""
        · simp [hs] at hc
          exact ih _ _ _ c hc
        · simp [hs] at hc
          rcases hc with hc | hc
          · simp [hc]
          · exact ih _ _ _ c hc

/-- Every chunk emitted by the dispatch of one turn carries the current
step value. -/
theorem dispatchCalls_step (cfg : LoopConfig) (step : Nat) (calls : List ToolCallAcc) :
    ∀ msgs, ∀ c ∈ (dispatchCalls cfg step calls msgs).chunks, c.step = step := by
  induction calls with
  | nil =>
      intro msgs c hc
      simp [dispatchCalls] at hc
  | cons hd tl ih =>
      intro msgs c hc
      simp only [dispatchCalls] at hc
      cases hp : cfg.parse (argsOrEmptyObj hd.arguments) with
      | error e => simp [hp] at hc
      | ok params =>
          simp only [hp] at hc
          cases hf : cfg.tools.find? (fun t => t.name == hd.name) with
          | none =>
              simp [hf] at hc
              rcases hc with hc | hc | hc
              · simp [hc, preDispatchChunk]
              · simp [hc, unknownToolChunk]
              · exact ih _ c hc
          | some t =>
              simp only [hf] at hc
              cases he : t.execute params with
              | error e =>
                  simp [he] at hc
                  rcases hc with hc | hc | hc
                  · simp [hc, preDispatchChunk]
                  · simp [hc, errorChunk]
                  · exact ih _ c hc
              | ok data =>
                  simp only [he] at hc
                  by_cases hfin : (hd.name == ("finish") && isFinishResult data) = true
                  · simp [hfin] at hc
                    rcases hc with hc | hc | hc
                    · simp [hc, preDispatchChunk]
                    · simp [hc, successChunk]
                    · simp [hc, finishTerminalChunk]
                  · simp [hfin] at hc
                    rcases hc with hc | hc | hc
                    · simp [hc, preDispatchChunk]
                    · simp [hc, successChunk]
                    · exact ih _ c hc

/-- The dispatch of one turn emits a terminal chunk exactly when it ends the
loop through the finish tool; otherwise every emitted chunk has
isDone:false. -/
theorem dispatchCalls_done_count (cfg : LoopConfig) (step : Nat) (calls : List ToolCallAcc) :
    ∀ msgs,
      (((dispatchCalls cfg step calls msgs).outcome = .finished →
          (dispatchCalls cfg step calls msgs).chunks.countP (fun c => c.isDone) = 1) ∧
        ((dispatchCalls cfg step calls msgs).outcome ≠ .finished →
          (dispatchCalls cfg step calls msgs).chunks.countP (fun c => c.isDone) = 0)) := by
  induction calls with
  | nil =>
      intro msgs
      simp [dispatchCalls]
  | cons hd tl ih =>
      intro msgs
      simp only [dispatchCalls]
      split
      · simp
      · split
        · simpa [List.countP_cons, preDispatchChunk, unknownToolChunk] using ih msgs
        · split
          · simpa [List.countP_cons, preDispatchChunk, errorChunk] using ih _
          · split
            · simp [List.countP_cons, preDispatchChunk, successChunk,
                    finishTerminalChunk]
            · simpa [List.countP_cons, preDispatchChunk, successChunk] using ih _

/-- No chunk emitted while consuming a stream is terminal. -/
theorem consumeStream_done_count (step : Nat) (l : List RawChunk) (err : Option String)
    (acc : String) (m : ToolCallMap) :
    (consumeStream step l err acc m).chunks.countP (fun c => c.isDone) = 0 := by
  rw [List.countP_eq_zero]
  intro c hc
  simp [(consumeStream_chunks_shape step l err acc m c hc).1]

/-- Core budget invariant of the loop: running with a given amount of fuel
issues at most that many streaming requests and emits at most one terminal
chunk. -/
theorem agentLoop_budget (cfg : LoopConfig) (fuel : Nat) :
    ∀ gw step msgs,
      (agentLoop cfg gw fuel step msgs).requests ≤ fuel ∧
      (agentLoop cfg gw fuel step msgs).chunks.countP (fun c => c.isDone) ≤ 1 := by
  induction fuel with
  | zero =>
      intro gw step msgs
      simp [agentLoop, maxStepsChunk]
  | succ fuel ih =>
      intro gw step msgs
      simp only [agentLoop]
      have hsoc := consumeStream_done_count (step + 1) (gw.headD {}).chunks
        (gw.headD {}).err ("") []
      generalize hso : consumeStream (step + 1) (gw.headD {}).chunks
        (gw.headD {}).err ("") [] = so
      rw [hso] at hsoc
      split
      · constructor
        · exact Nat.succ_le_succ (Nat.zero_le _)
        · simp only [List.countP_append, hsoc, List.countP_cons, List.countP_nil,
            catchChunk, Nat.zero_add]
          simp
      · split
        · constructor
          · exact Nat.succ_le_succ (Nat.zero_le _)
          · simp [hsoc]
        · have hcount := dispatchCalls_done_count cfg (step + 1)
            (List.map Prod.snd so.callMap)
            (msgs ++ [assistantMessage so.content (List.map Prod.snd so.callMap)])
          generalize hd : dispatchCalls cfg (step + 1)
            (List.map Prod.snd so.callMap)
            (msgs ++ [assistantMessage so.content (List.map Prod.snd so.callMap)]) = d
          rw [hd] at hcount
          split
          next hfin =>
            constructor
            · exact Nat.succ_le_succ (Nat.zero_le _)
            · simp only [List.countP_append, hsoc, hcount.1 hfin, Nat.zero_add]
              exact Nat.le_refl 1
          next e hraised =>
            constructor
            · exact Nat.succ_le_succ (Nat.zero_le _)
            · have h0 := hcount.2 (by simp [hraised])
              simp only [List.countP_append, hsoc, h0, List.countP_cons, List.countP_nil,
                catchChunk, Nat.zero_add]
              simp
          next hnext =>
            constructor
            · exact Nat.succ_le_succ (ih gw.tail (step + 1) d.messages).1
            · have h0 := hcount.2 (by simp [hnext])
              simp only [List.countP_append, hsoc, h0, Nat.zero_add]
              exact (ih gw.tail (step + 1) d.messages).2

/-- The step values of the chunks emitted while consuming a stream. -/
theorem consumeStream_steps (step : Nat) (l : List RawChunk) (err : Option String)
    (acc : String) (m : ToolCallMap) :
    ∀ x ∈ (consumeStream step l err acc m).chunks.map (fun c => c.step), x = step := by
  intro x hx
  rcases List.mem_map.1 hx with ⟨c, hc, rfl⟩
  exact (consumeStream_chunks_shape step l err acc m c hc).2.1

/-- The step values of the chunks emitted while dispatching a turn. -/
theorem dispatchCalls_steps (cfg : LoopConfig) (step : Nat) (calls : List ToolCallAcc)
    (msgs : List ChatMessage) :
    ∀ x ∈ (dispatchCalls cfg step calls msgs).chunks.map (fun c => c.step), x = step := by
  intro x hx
  rcases List.mem_map.1 hx with ⟨c, hc, rfl⟩
  exact dispatchCalls_step cfg step calls msgs c hc

/-- A constant list is a stepRel chain. -/
theorem chain_of_const (v : Nat) :
    ∀ l : List Nat, (∀ x ∈ l, x = v) → List.Chain' stepRel l := by
  intro l
  induction l with
  | nil => intro _; simp
  | cons x t ih =>
      intro h
      rw [List.chain'_cons']
      constructor
      · intro b hb
        have hbv : b = v := h b (List.mem_cons_of_mem x (List.mem_of_mem_head? hb))
        have hxv : x = v := h x (List.mem_cons_self x t)
        exact Or.inl (hxv.trans hbv.symm)
      · exact ih (fun y hy => h y (List.mem_cons_of_mem x hy))

/-- Appending a chain after a constant prefix stays a chain when the chain's
head relates to the constant. -/
theorem chain_append_const (v : Nat) (l1 l2 : List Nat)
    (h1 : ∀ x ∈ l1, x = v) (h2 : List.Chain' stepRel l2)
    (hh : ∀ y, l2.head? = some y → stepRel v y) :
    List.Chain' stepRel (l1 ++ l2) := by
  induction l1 with
  | nil => simpa using h2
  | cons x t ih =>
      rw [List.cons_append, List.chain'_cons']
      constructor
      · intro b hb
        have hxv : x = v := h1 x (List.mem_cons_self x t)
        cases t with
        | nil =>
            simp only [List.nil_append] at hb
            have := hh b (by simpa using hb)
            exact hxv ▸ this
        | cons y t' =>
            have hby : y = b := by simpa using hb
            have hyv : y = v := h1 y (by simp)
            have hbv : b = v := hby ▸ hyv
            exact Or.inl (hxv.trans hbv.symm)
      · exact ih (fun z hz => h1 z (List.mem_cons_of_mem x hz))

/-- First element of a constant prefix followed by a suffix. -/
theorem head_of_append_const (v : Nat) (P : Nat → Prop) (l1 l2 : List Nat)
    (h1 : ∀ x ∈ l1, x = v) (hh : ∀ y, l2.head? = some y → P y) :
    ∀ z, (l1 ++ l2).head? = some z → z = v ∨ P z := by
  intro z hz
  cases l1 with
  | nil => exact Or.inr (hh z (by simpa using hz))
  | cons x t =>
      simp only [List.cons_append, List.head?_cons, Option.some_inj] at hz
      exact Or.inl (hz ▸ h1 x (List.mem_cons_self x t))

/-- When a non-empty turn's dispatch decides to keep looping, it has emitted
at least one chunk (every processed call emits its pre-dispatch chunk, and a
parse throw yields the raised outcome instead). -/
theorem dispatchCalls_next_ne_nil (cfg : LoopConfig) (step : Nat) (c : ToolCallAcc)
    (rest : List ToolCallAcc) (msgs : List ChatMessage) :
    (dispatchCalls cfg step (c :: rest) msgs).chunks ≠ [] ∨
    (dispatchCalls cfg step (c :: rest) msgs).outcome ≠ .next := by
  simp only [dispatchCalls]
  split
  · exact Or.inr (by simp)
  · split
    · exact Or.inl (by simp)
    · split
      · exact Or.inl (by simp)
      · split
        · exact Or.inr (by simp)
        · exact Or.inl (by simp)

/-- Step values of the emitted chunk sequence: every chunk's step lies above
the entry step (strictly when fuel remains), the first chunk carries the
entry step plus one (or the entry step itself for the budget chunk), and
adjacent step values agree or grow by exactly one. -/
theorem agentLoop_steps (cfg : LoopConfig) (fuel : Nat) :
    ∀ gw step msgs,
      (∀ x ∈ (agentLoop cfg gw fuel step msgs).chunks.map (fun c => c.step),
          step ≤ x ∧ (fuel ≠ 0 → step + 1 ≤ x)) ∧
      (∀ x, ((agentLoop cfg gw fuel step msgs).chunks.map (fun c => c.step)).head? = some x →
          x = step + 1 ∨ x = step) ∧
      List.Chain' stepRel ((agentLoop cfg gw fuel step msgs).chunks.map (fun c => c.step)) := by
  induction fuel with
  | zero =>
      intro gw step msgs
      refine ⟨?_, ?_, ?_⟩
      · intro x hx
        simp [agentLoop, maxStepsChunk] at hx
        omega
      · intro x hx
        simp [agentLoop, maxStepsChunk] at hx
        omega
      · simp [agentLoop, maxStepsChunk]
  | succ fuel ih =>
      intro gw step msgs
      simp only [agentLoop]
      have hsos := consumeStream_steps (step + 1) (gw.headD {}).chunks
        (gw.headD {}).err ("") []
      generalize hso : consumeStream (step + 1) (gw.headD {}).chunks
        (gw.headD {}).err ("") [] = so
      rw [hso] at hsos
      split
      next e hraised =>
        have hall : ∀ x ∈ (so.chunks ++ [catchChunk (step + 1) e]).map
            (fun c => c.step), x = step + 1 := by
          intro x hx
          rw [List.map_append] at hx
          rcases List.mem_append.1 hx with hx | hx
          · exact hsos x hx
          · simpa [catchChunk] using hx
        refine ⟨?_, ?_, ?_⟩
        · intro x hx
          have hv := hall x hx
          omega
        · intro x hx
          exact Or.inl (hall x (List.mem_of_mem_head? (Option.mem_def.2 hx)))
        · exact chain_of_const (step + 1) _ hall
      next hnoraise =>
        split
        next hempty =>
          refine ⟨?_, ?_, ?_⟩
          · intro x hx
            have hv := hsos x hx
            omega
          · intro x hx
            exact Or.inl (hsos x (List.mem_of_mem_head? (Option.mem_def.2 hx)))
          · exact chain_of_const (step + 1) _ hsos
        next hnonempty =>
          have hmapne : List.map Prod.snd so.callMap ≠ [] := by
            intro hnil
            exact hnonempty (by simp [hnil])
          obtain ⟨c0, rest0, hcons⟩ := List.exists_cons_of_ne_nil hmapne
          have hds := dispatchCalls_steps cfg (step + 1)
            (List.map Prod.snd so.callMap)
            (msgs ++ [assistantMessage so.content (List.map Prod.snd so.callMap)])
          have hnn := dispatchCalls_next_ne_nil cfg (step + 1) c0 rest0
            (msgs ++ [assistantMessage so.content (List.map Prod.snd so.callMap)])
          rw [← hcons] at hnn
          generalize hd : dispatchCalls cfg (step + 1)
            (List.map Prod.snd so.callMap)
            (msgs ++ [assistantMessage so.content (List.map Prod.snd so.callMap)]) = d
          rw [hd] at hds hnn
          split
          next hfin =>
            have hall : ∀ x ∈ (so.chunks ++ d.chunks).map (fun c => c.step),
                x = step + 1 := by
              intro x hx
              rw [List.map_append] at hx
              rcases List.mem_append.1 hx with hx | hx
              · exact hsos x hx
              · exact hds x hx
            refine ⟨?_, ?_, ?_⟩
            · intro x hx
              have hv := hall x hx
              omega
            · intro x hx
              exact Or.inl (hall x (List.mem_of_mem_head? (Option.mem_def.2 hx)))
            · exact chain_of_const (step + 1) _ hall
          next e hraised2 =>
            have hall : ∀ x ∈ (so.chunks ++ d.chunks ++ [catchChunk (step + 1) e]).map
                (fun c => c.step), x = step + 1 := by
              intro x hx
              rw [List.map_append, List.map_append] at hx
              rcases List.mem_append.1 hx with hx | hx
              · rcases List.mem_append.1 hx with hx | hx
                · exact hsos x hx
                · exact hds x hx
              · simpa [catchChunk] using hx
            refine ⟨?_, ?_, ?_⟩
            · intro x hx
              have hv := hall x hx
              omega
            · intro x hx
              exact Or.inl (hall x (List.mem_of_mem_head? (Option.mem_def.2 hx)))
            · exact chain_of_const (step + 1) _ hall
          next hnext =>
            have hne : d.chunks ≠ [] := by
              rcases hnn with h | h
              · exact h
              · exact absurd hnext h
            have ihr := ih gw.tail (step + 1) d.messages
            have hconst : ∀ x ∈ (so.chunks.map (fun c => c.step) ++
                d.chunks.map (fun c => c.step)), x = step + 1 := by
              intro x hx
              rcases List.mem_append.1 hx with hx | hx
              · exact hsos x hx
              · exact hds x hx
            have hprefne : so.chunks.map (fun c => c.step) ++
                d.chunks.map (fun c => c.step) ≠ [] := by
              intro hnil
              rcases List.append_eq_nil.1 hnil with ⟨_, h2⟩
              exact hne (List.map_eq_nil_iff.1 h2)
            refine ⟨?_, ?_, ?_⟩
            · intro x hx
              simp only [List.map_append] at hx
              rcases List.mem_append.1 hx with hx | hx
              · rcases List.mem_append.1 hx with hx | hx
                · have hv := hsos x hx
                  omega
                · have hv := hds x hx
                  omega
              · have hv := (ihr.1 x hx).1
                omega
            · intro x hx
              simp only [List.map_append] at hx
              obtain ⟨h0, t0, hct⟩ := List.exists_cons_of_ne_nil hprefne
              rw [hct, List.cons_append, List.head?_cons, Option.some_inj] at hx
              have hm : h0 ∈ so.chunks.map (fun c => c.step) ++
                  d.chunks.map (fun c => c.step) := by
                rw [hct]
                exact List.mem_cons_self h0 t0
              exact Or.inl (hx ▸ hconst h0 hm)
            · simp only [List.map_append]
              refine chain_append_const (step + 1) _ _ hconst ihr.2.2 ?_
              intro y hy
              rcases ihr.2.1 y hy with h | h
              · exact Or.inr (by omega)
              · exact Or.inl h.symm

/-! ## Aggregator characterisation (fragment reassembly) -/

/-- Appending one fragment always concatenates its (possibly empty) name and
arguments parts. -/
theorem appendFrag_eq (acc : ToolCallAcc) (d : ToolCallDelta) :
    appendFrag acc d =
      { acc with name := acc.name ++ fragName d,
                 arguments := acc.arguments ++ fragArgs d } := by
  unfold appendFrag fragName fragArgs
  by_cases hn : ((d.func.bind ToolFuncDelta.name).getD ("")) = "" <;>
    by_cases ha : ((d.func.bind ToolFuncDelta.arguments).getD ("")) = "" <;>
      simp [hn, ha]

/-- Folding appendFrag over fragments concatenates all their parts. -/
theorem foldl_appendFrag (l : List ToolCallDelta) :
    ∀ acc, l.foldl appendFrag acc =
      { acc with name := acc.name ++ strConcat (l.map fragName),
                 arguments := acc.arguments ++ strConcat (l.map fragArgs) } := by
  induction l with
  | nil =>
      intro acc
      simp [strConcat]
  | cons d l ih =>
      intro acc
      simp only [List.foldl_cons, ih, appendFrag_eq, List.map_cons]
      simp [strConcat, String.append_assoc]

/-- Updating one key of the map only rewrites that key's entry. -/
theorem mapFind_mapUpdate (m : ToolCallMap) (j : Nat) (f : ToolCallAcc → ToolCallAcc) (i : Nat) :
    mapFind (mapUpdate m j f) i =
      if i = j then (mapFind m i).map f else mapFind m i := by
  unfold mapFind mapUpdate
  rw [List.find?_map]
  have hpred : ((fun p : Nat × ToolCallAcc => p.1 == i) ∘
      (fun p => if p.1 == j then (p.1, f p.2) else p)) =
      (fun p : Nat × ToolCallAcc => p.1 == i) := by
    funext p
    by_cases h : p.1 = j <;> simp [h]
  rw [hpred]
  cases hq : m.find? (fun p => p.1 == i) with
  | none => simp
  | some q =>
      have hqi := List.find?_some hq
      have hq1 : q.1 = i := by simpa using hqi
      by_cases hij : i = j
      · simp [Option.map_map, Function.comp, hq1, hij]
      · simp [Option.map_map, Function.comp, hq1, hij]

/-- Appending a fresh entry at the tail is only visible for its own key when
the key was absent. -/
theorem mapFind_append_single (m : ToolCallMap) (j : Nat) (a : ToolCallAcc) (i : Nat) :
    mapFind (m ++ [(j, a)]) i =
      (mapFind m i).or (if j = i then some a else none) := by
  unfold mapFind
  rw [List.find?_append]
  cases hq : m.find? (fun p => p.1 == i) with
  | some q => simp
  | none =>
      by_cases hji : j = i
      · simp [hji]
      · have hjb : (j == i) = false := by simp [hji]
        simp [hji, hjb]

/-- One fragment only touches its own index: first sight creates the entry,
then the fragment's parts are appended. -/
theorem mapFind_processFragment (m : ToolCallMap) (d : ToolCallDelta) (i : Nat) :
    mapFind (processFragment m d) i =
      if i = d.index then
        some (appendFrag ((mapFind m i).getD (initialAcc d)) d)
      else mapFind m i := by
  unfold processFragment
  by_cases hs : (m.find? (fun p => p.1 == d.index)).isSome = true
  · rw [if_pos hs, mapFind_mapUpdate]
    by_cases hid : i = d.index
    · subst hid
      obtain ⟨q, hq⟩ := Option.isSome_iff_exists.1 hs
      simp [mapFind, hq]
    · simp [hid]
  · rw [if_neg hs, mapFind_mapUpdate]
    by_cases hid : i = d.index
    · subst hid
      have hnone : m.find? (fun p => p.1 == d.index) = none :=
        Option.not_isSome_iff_eq_none.1 hs
      have hmn : mapFind m d.index = none := by simp [mapFind, hnone]
      simp [mapFind_append_single, hmn]
    · have hdi : ¬ d.index = i := fun h => hid h.symm
      simp [mapFind_append_single, hid, hdi]

/-- Folding any fragment sequence into the map, starting from any state:
the assembled entry for an index starts from the state's entry (or a fresh
entry built from the index's first fragment) and appends every one of that
index's fragments in delivery order, ignoring all other indexes. -/
theorem mapFind_foldl (ds : List ToolCallDelta) :
    ∀ (m : ToolCallMap) (i : Nat),
      mapFind (ds.foldl processFragment m) i =
        ((mapFind m i).or ((ds.find? (fun d => d.index == i)).map initialAcc)).map
          (fun a => (ds.filter (fun d => d.index == i)).foldl appendFrag a) := by
  induction ds with
  | nil =>
      intro m i
      simp
  | cons d ds ih =>
      intro m i
      simp only [List.foldl_cons]
      rw [ih, mapFind_processFragment]
      by_cases hid : i = d.index
      · have hb : (d.index == i) = true := by simp [hid]
        cases hm : mapFind m i with
        | some acc => simp [hid, hm, hb, List.filter_cons, List.find?_cons]
        | none => simp [hid, hm, hb, List.filter_cons, List.find?_cons]
      · have hb : (d.index == i) = false := by
          have : ¬ d.index = i := fun h => hid h.symm
          simp [this]
        simp [hid, hb, List.filter_cons, List.find?_cons]

/-! ## Gateway adapter (streaming-chat) -/

/-- Generalised characterisation of the adapter's terminal marker: running
from an arbitrary hasContent flag, a terminal chunk appears exactly when the
stream's exception is reached (no finish marker breaks first) or when a
finish marker arrives with the flag still clear and no content delivered up
to it. -/
theorem scRun_done_iff (l : List RawChunk) :
    ∀ (err : Option String) (hc : Bool),
      ((scRun l err hc).any (fun c => c.isDone)) =
        ((err.isSome && l.all (fun c => !strTruthy c.finish_reason)) ||
          (!hc && finishBeforeContent l)) := by
  induction l with
  | nil =>
      intro err hc
      cases err <;> simp [scRun, finishBeforeContent]
  | cons c rest ih =>
      intro err hc
      simp only [scRun, finishBeforeContent]
      by_cases hs : contentOf c = ""
      · by_cases hf : strTruthy c.finish_reason = true
        · simp [hs, hf]
          cases hc <;> simp
        · simp only [Bool.not_eq_true] at hf
          simp [hs, hf, ih]
      · by_cases hf : strTruthy c.finish_reason = true
        · simp [hs, hf]
        · simp only [Bool.not_eq_true] at hf
          simp [hs, hf, ih]

/-! ## Claim theorems -/

/-- Claim C10: the gateway adapter's chunk sequence contains an isDone:true
chunk exactly when the underlying stream's exception is reached (which
requires that no truthy finish_reason broke the loop first), or a
finish_reason arrives before any non-empty content fragment was delivered;
in particular, after content and without an exception the sequence ends at
the finish marker with no terminal chunk at all. -/
theorem claim10_streaming_chat_done_marker (ts : TurnStream) :
    ((createStreamingChat ts).any (fun c => c.isDone)) =
      ((ts.err.isSome && ts.chunks.all (fun c => !strTruthy c.finish_reason)) ||
        finishBeforeContent ts.chunks) := by
  unfold createStreamingChat
  rw [scRun_done_iff]
  simp

/-- The resolved step budget is always at least one (both selectable configs
set maxSteps = 99, and a zero or absent option falls back to them). -/
theorem effectiveMaxSteps_pos (o : Option Nat) : 1 ≤ effectiveMaxSteps o := by
  unfold effectiveMaxSteps
  cases o with
  | none =>
      show 1 ≤ 99
      omega
  | some k =>
      show 1 ≤ if k = 0 then 99 else k
      by_cases hk : k = 0
      · rw [if_pos hk]
        omega
      · rw [if_neg hk]
        omega

/-- Claim C8: within one invocation the emitted chunks' step values are
1-based (every chunk's step is at least 1 and the first chunk carries step
1), and the sequence of step values is monotonically non-decreasing, moving
only in increments of one (unchanged within an iteration, plus one across
iterations). -/
theorem claim8_step_monotonic (tools : List AgentTool) (mso : Option Nat)
    (parse : String → Except String JVal) (sp um : String) (gw : List TurnStream) :
    (∀ c ∈ (createAgentChat tools mso parse sp um gw).chunks, 1 ≤ c.step) ∧
    (∀ c, (createAgentChat tools mso parse sp um gw).chunks.head? = some c → c.step = 1) ∧
    List.Chain' stepRel
      ((createAgentChat tools mso parse sp um gw).chunks.map (fun c => c.step)) ∧
    List.Chain' (fun a b => a ≤ b)
      ((createAgentChat tools mso parse sp um gw).chunks.map (fun c => c.step)) := by
  have hpos := effectiveMaxSteps_pos mso
  have h := agentLoop_steps ⟨tools, effectiveMaxSteps mso, parse⟩ (effectiveMaxSteps mso) gw 0
    [{ role := "system", content := .jstr sp }, { role := "user", content := .jstr um }]
  have h1 : ∀ c ∈ (createAgentChat tools mso parse sp um gw).chunks, 1 ≤ c.step := by
    intro c hc
    have hx := h.1 c.step (List.mem_map.2 ⟨c, hc, rfl⟩)
    have h2 := hx.2 (by omega)
    omega
  refine ⟨h1, ?_, h.2.2, ?_⟩
  · intro c hc
    have hmap : ((createAgentChat tools mso parse sp um gw).chunks.map
        (fun c => c.step)).head? = some c.step := by
      rw [List.head?_map]
      rw [show (createAgentChat tools mso parse sp um gw).chunks.head? = some c from hc]
      rfl
    have hh := h.2.1 c.step hmap
    have hge := h1 c (List.mem_of_mem_head? (Option.mem_def.2 hc))
    omega
  · exact List.Chain'.imp (fun a b hab => by rcases hab with h | h <;> omega) h.2.2

/-- Counterexample to claim C2 as stated: with maxSteps = 3 and a gateway
behaviour whose first turn is a plain direct answer (content plus a stop
marker, no tool calls), the invocation emits zero terminal isDone:true
chunks, not exactly one. -/
theorem claim2_counterexample :
    (createAgentChat [finishTool] (some 3) testParse ("sys") ("q")
        gwDirectAnswer).chunks.countP (fun c => c.isDone) = 0 ∧
    ¬ ((createAgentChat [finishTool] (some 3) testParse ("sys") ("q")
        gwDirectAnswer).chunks.countP (fun c => c.isDone) = 1) := by
  constructor
  · rfl
  · decide

/-- Claim C2 (amended): with maxSteps = K (K ≥ 1) and any gateway
behaviour, one invocation issues at most K streaming requests and the
emitted event sequence contains at most one terminal chunk with
isDone:true. -/
theorem claim2_amended_budget (tools : List AgentTool)
    (parse : String → Except String JVal) (sp um : String) (gw : List TurnStream)
    (K : Nat) (hK : 1 ≤ K) :
    (createAgentChat tools (some K) parse sp um gw).requests ≤ K ∧
    (createAgentChat tools (some K) parse sp um gw).chunks.countP
      (fun c => c.isDone) ≤ 1 := by
  have heff : effectiveMaxSteps (some K) = K := by
    unfold effectiveMaxSteps
    have hk0 : ¬ K = 0 := by omega
    simp [hk0]
  simp only [createAgentChat]
  rw [heff]
  exact agentLoop_budget ⟨tools, K, parse⟩ K gw 0 _

/-- Witness for the amended claim C2 at K = 1 on the empty gateway
behaviour. -/
theorem claim2_amended_budget_witness :
    1 ≤ 1 ∧
    ((createAgentChat [] (some 1) testParse ("s") ("u") []).requests ≤ 1 ∧
      (createAgentChat [] (some 1) testParse ("s") ("u") []).chunks.countP
        (fun c => c.isDone) ≤ 1) :=
  ⟨Nat.le_refl 1, claim2_amended_budget [] testParse ("s") ("u") [] 1 (Nat.le_refl 1)⟩

/-- Counterexample to claim C7 as stated: on spec Scenario A (content "2"
then "+2=4" then a completion marker, no tool calls) the invocation emits
exactly the 2 content chunks with isDone:false and then ends with NO
terminal isDone:true event (the claim requires one). -/
theorem claim7_counterexample :
    (createAgentChat [finishTool] (some 5) testParse ("sys") ("2+2?")
        gwScenarioA).chunks =
      [{ content := ("2"), step := 1, isDone := false },
       { content := ("+2=4"), step := 1, isDone := false }] ∧
    (createAgentChat [finishTool] (some 5) testParse ("sys") ("2+2?")
        gwScenarioA).requests = 1 ∧
    ¬ ((createAgentChat [finishTool] (some 5) testParse ("sys") ("2+2?")
        gwScenarioA).chunks.countP (fun c => c.isDone) = 1) := by
  refine ⟨rfl, rfl, by decide⟩

/-- Claim C7 (amended): a first turn whose consumed stream produced no
tool-call fragments and reached no stream exception terminates the loop on
step 1: exactly one request is issued, the emitted events are exactly the
per-fragment content chunks of that turn, and none of them is terminal or
carries a tool call (no tool is dispatched and no terminal isDone:true
event is emitted). -/
theorem claim7_amended_direct_answer (tools : List AgentTool) (mso : Option Nat)
    (parse : String → Except String JVal) (sp um : String) (ts : TurnStream)
    (rest : List TurnStream)
    (hmap : (consumeStream 1 ts.chunks ts.err ("") []).callMap = [])
    (herr : (consumeStream 1 ts.chunks ts.err ("") []).raised = none) :
    (createAgentChat tools mso parse sp um (ts :: rest)).requests = 1 ∧
    (createAgentChat tools mso parse sp um (ts :: rest)).chunks =
      (consumeStream 1 ts.chunks ts.err ("") []).chunks ∧
    ∀ c ∈ (createAgentChat tools mso parse sp um (ts :: rest)).chunks,
      c.isDone = false ∧ c.toolCall = none := by
  obtain ⟨f, hf⟩ : ∃ f, effectiveMaxSteps mso = f + 1 := by
    have := effectiveMaxSteps_pos mso
    exact ⟨effectiveMaxSteps mso - 1, by omega⟩
  simp only [createAgentChat]
  rw [hf]
  simp only [agentLoop, List.headD_cons, Nat.zero_add, herr, hmap, List.map_nil,
    List.isEmpty_nil, if_true]
  refine ⟨trivial, trivial, ?_⟩
  intro c hc
  have hsh := consumeStream_chunks_shape 1 ts.chunks ts.err ("") [] c hc
  exact ⟨hsh.1, hsh.2.2.1⟩

/-- Witness for the amended claim C7 on the Scenario A behaviour. -/
theorem claim7_amended_direct_answer_witness :
    ((consumeStream 1 [contentChunkRaw ("2"), contentChunkRaw ("+2=4"),
        finishReasonRaw ("stop")] none ("") []).callMap = [] ∧
      (consumeStream 1 [contentChunkRaw ("2"), contentChunkRaw ("+2=4"),
        finishReasonRaw ("stop")] none ("") []).raised = none) ∧
    ((createAgentChat [finishTool] (some 5) testParse ("sys") ("2+2?")
        gwScenarioA).requests = 1 ∧
      (createAgentChat [finishTool] (some 5) testParse ("sys") ("2+2?")
        gwScenarioA).chunks =
        (consumeStream 1 [contentChunkRaw ("2"), contentChunkRaw ("+2=4"),
          finishReasonRaw ("stop")] none ("") []).chunks ∧
      ∀ c ∈ (createAgentChat [finishTool] (some 5) testParse ("sys") ("2+2?")
        gwScenarioA).chunks, c.isDone = false ∧ c.toolCall = none) :=
  ⟨⟨rfl, rfl⟩,
    claim7_amended_direct_answer [finishTool] (some 5) testParse ("sys") ("2+2?")
      { chunks := [contentChunkRaw ("2"), contentChunkRaw ("+2=4"),
          finishReasonRaw ("stop")] }
      [] rfl rfl⟩

/-- Counterexample to claim C5 as stated: when the model requests the
unregistered tool no_such_tool, the loop emits the failure StepEvent and
continues to a second step, but NO tool turn is ever appended to history
(the claim requires the failure result to be appended as a tool turn). -/
theorem claim5_counterexample :
    (createAgentChat [finishTool] (some 5) testParse ("sys") ("q")
        gwUnknownTool).messages.countP (fun m => m.role == ("tool")) = 0 ∧
    (createAgentChat [finishTool] (some 5) testParse ("sys") ("q")
        gwUnknownTool).chunks.countP
      (fun c => c.error == some (("未找到工具: no_such_tool"))) = 1 ∧
    (createAgentChat [finishTool] (some 5) testParse ("sys") ("q")
        gwUnknownTool).requests = 2 := by
  refine ⟨by decide, by decide, rfl⟩

/-- Claim C5 (amended): for a tool call whose name matches no registered
tool (and whose arguments parse), the dispatcher emits the pre-dispatch
chunk followed by the synthesized failure chunk — whose result is
{success:false, error:"未找到工具: <name>"} and whose error field carries the
same message — and continues with the remaining calls; history is NOT
extended for that call (the messages after the turn are exactly those
produced by the remaining calls from the unchanged history). -/
theorem claim5_amended_unknown_tool (cfg : LoopConfig) (step : Nat)
    (c : ToolCallAcc) (rest : List ToolCallAcc) (msgs : List ChatMessage) (p : JVal)
    (hp : cfg.parse (argsOrEmptyObj c.arguments) = .ok p)
    (hunknown : cfg.tools.find? (fun t => t.name == c.name) = none) :
    dispatchCalls cfg step (c :: rest) msgs =
      ⟨preDispatchChunk step c.name p :: unknownToolChunk step c.name p ::
          (dispatchCalls cfg step rest msgs).chunks,
        (dispatchCalls cfg step rest msgs).messages,
        (dispatchCalls cfg step rest msgs).outcome⟩ := by
  simp only [dispatchCalls, hp, hunknown]

/-- Witness for the amended claim C5: an unregistered call dispatched
against the finish-only registry. -/
theorem claim5_amended_unknown_tool_witness :
    (testParse (argsOrEmptyObj ("\x7b\x7d")) = .ok (.jobj []) ∧
      [finishTool].find? (fun t => t.name == ("no_such_tool")) = none) ∧
    dispatchCalls ({ tools := [finishTool], maxSteps := 5, parse := testParse }) 1
        [⟨some ("call_1"), ("function"), ("no_such_tool"), ("\x7b\x7d")⟩] [] =
      ⟨preDispatchChunk 1 ("no_such_tool") (.jobj []) ::
          unknownToolChunk 1 ("no_such_tool") (.jobj []) ::
          (dispatchCalls ({ tools := [finishTool], maxSteps := 5, parse := testParse }) 1 [] []).chunks,
        (dispatchCalls ({ tools := [finishTool], maxSteps := 5, parse := testParse }) 1 [] []).messages,
        (dispatchCalls ({ tools := [finishTool], maxSteps := 5, parse := testParse }) 1 [] []).outcome⟩ :=
  ⟨⟨rfl, rfl⟩,
    claim5_amended_unknown_tool ({ tools := [finishTool], maxSteps := 5, parse := testParse }) 1
      ⟨some ("call_1"), ("function"), ("no_such_tool"), ("\x7b\x7d")⟩ [] [] (.jobj [])
      rfl rfl⟩

/-- Counterexample to claim C6 as stated: for a successful finish call the
loop emits THREE events for that call — the pre-dispatch event
(result:null), then an ordinary post-dispatch success event with
isDone:false, and only then the terminal event — so another event stands
between the pre-dispatch event and the terminal one. -/
theorem claim6_counterexample :
    (createAgentChat [finishTool] (some 5) testParse ("sys") ("q")
        gwFinishCall).chunks.length = 3 ∧
    ((createAgentChat [finishTool] (some 5) testParse ("sys") ("q")
        gwFinishCall).chunks.map (fun c => c.isDone)) = [false, false, true] ∧
    ((createAgentChat [finishTool] (some 5) testParse ("sys") ("q")
        gwFinishCall).chunks.map (fun c => c.content)) = [(""), (""), ("4")] ∧
    ((createAgentChat [finishTool] (some 5) testParse ("sys") ("q")
        gwFinishCall).chunks.map (fun c => c.toolCall.map (fun tc => tc.name))) =
      [some ("finish"), some ("finish"), some ("finish")] := by
  refine ⟨rfl, by decide, by decide, by decide⟩

/-- Claim C6 (amended): when the dispatched tool is the finish tool and its
executed result carries a truthy finished field, the loop terminates and the
events emitted for that call are exactly: the pre-dispatch event with
result:null, the post-dispatch success event (isDone:false), and the
terminal event {content:<answer>, isDone:true}; the remaining calls of the
turn are not dispatched, and the tool turn is appended to history. -/
theorem claim6_amended_finish_events (cfg : LoopConfig) (step : Nat)
    (c : ToolCallAcc) (rest : List ToolCallAcc) (msgs : List ChatMessage)
    (p data : JVal) (t : AgentTool)
    (hp : cfg.parse (argsOrEmptyObj c.arguments) = .ok p)
    (hfind : cfg.tools.find? (fun t' => t'.name == c.name) = some t)
    (hexec : t.execute p = .ok data)
    (hname : c.name = ("finish"))
    (hfin : isFinishResult data = true) :
    dispatchCalls cfg step (c :: rest) msgs =
      ⟨[preDispatchChunk step c.name p, successChunk step c.name p data,
          finishTerminalChunk step c.name p data],
        msgs ++ [{ role := ("tool"), content := successResult c.name p data,
                   tool_call_id := some (toolCallIdOr c.id step) }],
        .finished⟩ := by
  have hcond : (c.name == ("finish") && isFinishResult data) = true := by
    simp [hname, hfin]
  simp only [dispatchCalls, hp, hfind, hexec, hcond, if_true]

/-- Witness for the amended claim C6: a concrete finish({"answer":"4"})
call dispatched against the finish-only registry. -/
theorem claim6_amended_finish_events_witness :
    (testParse (argsOrEmptyObj ("\x7b\"answer\":\"4\"\x7d")) =
        .ok (.jobj [(("answer"), .jstr ("4"))]) ∧
      [finishTool].find? (fun t' => t'.name == ("finish")) = some finishTool ∧
      finishTool.execute (.jobj [(("answer"), .jstr ("4"))]) =
        .ok (.jobj [(("finished"), .jbool true), (("answer"), .jstr ("4"))]) ∧
      isFinishResult (.jobj [(("finished"), .jbool true), (("answer"), .jstr ("4"))]) =
        true) ∧
    dispatchCalls ({ tools := [finishTool], maxSteps := 5, parse := testParse }) 1
        [⟨some ("call_f"), ("function"), ("finish"), ("\x7b\"answer\":\"4\"\x7d")⟩] [] =
      ⟨[preDispatchChunk 1 ("finish") (.jobj [(("answer"), .jstr ("4"))]),
          successChunk 1 ("finish") (.jobj [(("answer"), .jstr ("4"))])
            (.jobj [(("finished"), .jbool true), (("answer"), .jstr ("4"))]),
          finishTerminalChunk 1 ("finish") (.jobj [(("answer"), .jstr ("4"))])
            (.jobj [(("finished"), .jbool true), (("answer"), .jstr ("4"))])],
        [] ++ [{ role := ("tool"),
                 content := successResult ("finish") (.jobj [(("answer"), .jstr ("4"))])
                   (.jobj [(("finished"), .jbool true), (("answer"), .jstr ("4"))]),
                 tool_call_id := some (toolCallIdOr (some ("call_f")) 1) }],
        .finished⟩ :=
  ⟨⟨rfl, rfl, rfl, rfl⟩,
    claim6_amended_finish_events
      ({ tools := [finishTool], maxSteps := 5, parse := testParse }) 1
      ⟨some ("call_f"), ("function"), ("finish"), ("\x7b\"answer\":\"4\"\x7d")⟩ [] []
      (.jobj [(("answer"), .jstr ("4"))])
      (.jobj [(("finished"), .jbool true), (("answer"), .jstr ("4"))])
      finishTool rfl rfl rfl rfl rfl⟩

/-- Claim C3: for any fragment sequence (any chunking of one call's name and
arguments, arbitrarily interleaved with fragments of other indexes), the
aggregator's assembled entry for an index is built from that index's first
fragment (id, type) and its name/arguments are the order-preserving
concatenation of that index's fragments — hence equal to what a
single-fragment delivery of the concatenated strings would produce, with
nothing overwritten. -/
theorem claim3_fragment_reassembly (ds : List ToolCallDelta) (i : Nat)
    (d0 : ToolCallDelta)
    (hfirst : ds.find? (fun d => d.index == i) = some d0) :
    mapFind (ds.foldl processFragment []) i =
      some { id := d0.id, typ := strOr d0.typ ("function"),
             name := strConcat ((ds.filter (fun d => d.index == i)).map fragName),
             arguments :=
               strConcat ((ds.filter (fun d => d.index == i)).map fragArgs) } := by
  rw [mapFind_foldl, hfirst]
  have hm : mapFind ([] : ToolCallMap) i = none := rfl
  rw [hm]
  simp [foldl_appendFrag, initialAcc]

/-- Witness for claim C3: the name "eval" delivered as "ev"+"al" and the
arguments delivered as two halves, interleaved with another index's
fragment, reassemble to the single-chunk strings. -/
theorem claim3_fragment_reassembly_witness :
    (interleavedFrags.find? (fun d => d.index == 0) =
        some (fragRaw 0 (some ("a")) (some ("ev")) (some ("\x7b")))) ∧
    strConcat ((interleavedFrags.filter (fun d => d.index == 0)).map fragName) =
      ("eval") ∧
    strConcat ((interleavedFrags.filter (fun d => d.index == 0)).map fragArgs) =
      ("\x7b\x7d") ∧
    mapFind (interleavedFrags.foldl processFragment []) 0 =
      some { id := some ("a"), typ := ("function"),
             name := strConcat ((interleavedFrags.filter
               (fun d => d.index == 0)).map fragName),
             arguments := strConcat ((interleavedFrags.filter
               (fun d => d.index == 0)).map fragArgs) } :=
  ⟨rfl, rfl, rfl,
    claim3_fragment_reassembly interleavedFrags 0
      (fragRaw 0 (some ("a")) (some ("ev")) (some ("\x7b"))) rfl⟩

/-- The key list of the map, under one fragment: unchanged for an already
seen index, extended at the tail for a new index. -/
theorem keys_contains_iff (m : ToolCallMap) (j : Nat) :
    (m.map Prod.fst).contains j = (m.find? (fun p => p.1 == j)).isSome := by
  induction m with
  | nil => rfl
  | cons p m ih =>
      simp only [List.map_cons, List.contains_cons]
      by_cases h : p.1 = j
      · rw [List.find?_cons_of_pos _ (by simp [h])]
        simp [h]
      · rw [List.find?_cons_of_neg _ (by simp [h])]
        have h2 : ¬ j = p.1 := fun hh => h hh.symm
        have ih2 : decide (j ∈ m.map Prod.fst) =
            (m.find? (fun p => p.1 == j)).isSome := by simpa using ih
        simp [h2, ih2]

/-- Keys after one fragment: insertion order, new indexes appended at the
tail. -/
theorem keys_processFragment (m : ToolCallMap) (d : ToolCallDelta) :
    (processFragment m d).map Prod.fst =
      if (m.map Prod.fst).contains d.index then m.map Prod.fst
      else m.map Prod.fst ++ [d.index] := by
  unfold processFragment mapUpdate
  have hkeys : ∀ (l : ToolCallMap),
      (l.map (fun p => if p.1 == d.index then (p.1, appendFrag p.2 d) else p)).map
        Prod.fst = l.map Prod.fst := by
    intro l
    rw [List.map_map]
    apply List.map_congr_left
    intro p _
    by_cases h : p.1 = d.index <;> simp [h]
  rw [keys_contains_iff]
  by_cases hc : (m.find? (fun p => p.1 == d.index)).isSome = true
  · rw [if_pos hc, if_pos hc, hkeys]
  · rw [if_neg hc, if_neg hc, hkeys, List.map_append]
    rfl

/-- Keys of the folded map are the first-seen order of the fragments'
indexes, appended after the keys already present. -/
theorem keys_foldl_processFragment (ds : List ToolCallDelta) :
    ∀ m : ToolCallMap,
      (ds.foldl processFragment m).map Prod.fst =
        ds.foldl (fun ks d => if ks.contains d.index then ks else ks ++ [d.index])
          (m.map Prod.fst) := by
  induction ds with
  | nil => intro m; rfl
  | cons d ds ih =>
      intro m
      simp only [List.foldl_cons]
      rw [ih, keys_processFragment]

/-- Counterexample to claim C4 as stated: delivering the first fragments of
index 1 before index 0 materializes the list in insertion order [1, 0] —
not ascending index order — and the dispatch order follows it (tool_b is
dispatched before tool_a). -/
theorem claim4_counterexample :
    ((outOfOrderFrags.foldl processFragment []).map Prod.fst = [1, 0] ∧
      ¬ List.Chain' (fun a b => a ≤ b)
        ((outOfOrderFrags.foldl processFragment []).map Prod.fst)) ∧
    ((createAgentChat [finishTool] (some 1) testParse ("sys") ("q")
        gwOutOfOrder).chunks.filterMap
      (fun c => c.toolCall.map (fun tc => tc.name))) =
      [("tool_b"), ("tool_b"), ("tool_a"), ("tool_a")] := by
  have hkeys : (outOfOrderFrags.foldl processFragment []).map Prod.fst = [1, 0] := by
    decide
  refine ⟨⟨hkeys, ?_⟩, by decide⟩
  rw [hkeys]
  simp [List.chain'_cons]

/-- Claim C4 (amended): the materialized list of assembled tool calls — and
therefore the sequential dispatch order — is in first-seen (insertion)
order of the indexes, which coincides with ascending index order exactly
when the first fragments of the distinct indexes arrive in ascending index
order. -/
theorem claim4_amended_insertion_order (ds : List ToolCallDelta) :
    (ds.foldl processFragment []).map Prod.fst = firstSeenOrder ds := by
  rw [keys_foldl_processFragment]
  rfl

/-- Claim C1 evaluated at the failing input (code bug): a tool call whose
accumulated arguments string is not valid JSON makes JSON.parse throw
outside any per-call try/catch; the generator's outer catch turns it into a
single terminal isDone:true error chunk, no structured failure result is
appended to history (no tool turn exists), and the loop terminates after
one request instead of continuing (maxSteps was 3). -/
theorem claim1_parse_failure_terminates_loop :
    (createAgentChat [finishTool] (some 3) testParse ("sys") ("q")
        gwMalformedArgs).chunks =
      [catchChunk 1 (("Unexpected token in JSON: ") ++ ("\x7binvalid"))] ∧
    (createAgentChat [finishTool] (some 3) testParse ("sys") ("q")
        gwMalformedArgs).messages.countP (fun m => m.role == ("tool")) = 0 ∧
    (createAgentChat [finishTool] (some 3) testParse ("sys") ("q")
        gwMalformedArgs).requests = 1 := by
  refine ⟨rfl, by decide, rfl⟩
